import Mathlib

/-!
# Verification of `operations_research::TimeLimit` (src/util/time_limit.h)

Shallow embedding of the `TimeLimit` class from `src/util/time_limit.h`.

Modelling decisions:
* C++ `int64` nanosecond timestamps are modelled as `ℤ`, with `kint64max = 2^63 - 1`
  made explicit where the source mentions it.  No arithmetic in the source overflows
  on realistic clock values; theorems that depend on this carry explicit bounds.
* C++ `double` values are modelled as exact rationals extended with `+infinity`
  (type `Dbl`); IEEE rounding is below the abstraction level of the source's use.
* `base::GetCurrentTimeNanos()` and `UserTimer::Get()` are external inputs: every
  operation that reads them takes the reading as an explicit argument.
* The global flag `FLAGS_time_limit_use_usertime` is constant over the life of an
  instance; it is modelled as a construction-time Boolean.
* `kSafetyBufferSeconds` and `kHistorySize` are defined in the `.cc` file, which is
  not part of the given sources; they are construction-time parameters here.
* `RunningMax<int64>` comes from `util/running_stat.h`, which is not part of the
  given sources; it is modelled from the spec contract: it retains the last
  `history_size` added samples and reports their maximum.
-/

namespace operations_research

/-- `kint64max`, the largest `int64` value, used as the "no limit" sentinel. -/
def kint64max : ℤ := 2 ^ 63 - 1

/-- `static_cast<int64>` applied to a real (double) value: truncation toward zero. -/
def truncQ (q : ℚ) : ℤ := if 0 ≤ q then ⌊q⌋ else -⌊-q⌋

/-- Model of a C++ `double` restricted to the values the source manipulates:
a finite rational or `+infinity`. -/
inductive Dbl where
  | inf : Dbl
  | fin : ℚ → Dbl
deriving DecidableEq, Repr

namespace Dbl

/-- `d - q` for a double `d` and a finite double `q` (`inf - q = inf`). -/
def sub : Dbl → ℚ → Dbl
  | inf, _ => inf
  | fin a, b => fin (a - b)

/-- `std::max(0.0, d)`. -/
def max0 : Dbl → Dbl
  | inf => inf
  | fin a => fin (max 0 a)

/-- `d <= 0.0` as the C++ comparison evaluates it (`inf <= 0` is false). -/
def leZero : Dbl → Bool
  | inf => false
  | fin a => decide (a ≤ 0)

/-- `d > q` as the C++ comparison evaluates it (`inf > q` is true). -/
def gtQ : Dbl → ℚ → Bool
  | inf, _ => true
  | fin a, b => decide (b < a)

/-- `d >= q` as the C++ comparison evaluates it (`inf >= q` is true). -/
def geQ : Dbl → ℚ → Bool
  | inf, _ => true
  | fin a, b => decide (b ≤ a)

/-- `static_cast<int64>(d * 1e9)`: seconds to nanoseconds with truncation.
The `inf` case is C++ undefined behaviour; the source only reaches the cast with
finite values on realistic clock inputs, and every theorem below that could touch
the `inf` case carries hypotheses making it unreachable.  It is mapped to
`kint64max` (the saturation value the constructor uses). -/
def toNs : Dbl → ℤ
  | inf => kint64max
  | fin a => truncQ (a * 1000000000)

/-- The value is not negative (`inf` counts as non-negative). -/
def NonNeg : Dbl → Prop
  | inf => True
  | fin a => 0 ≤ a

instance : DecidablePred NonNeg := by
  intro d
  cases d <;> simp [NonNeg] <;> infer_instance

end Dbl

/-- Modelled from the spec: the `RunningMax<int64>` collaborator
(`util/running_stat.h`, not among the given sources) retains the last `size`
samples passed to `Add`.  Newest sample first. -/
def RunningMax.add (size : ℕ) (l : List ℤ) (x : ℤ) : List ℤ :=
  (x :: l).take size

/-- Modelled from the spec: `RunningMax::GetCurrentMax()`, the maximum of the
retained samples.  In the source it is only queried right after an `Add`, so the
empty case (defaulting to 0) is never reached there. -/
def RunningMax.currentMax : List ℤ → ℤ
  | [] => 0
  | x :: xs => xs.foldl max x

/-- State of a `TimeLimit` instance (fields of the C++ class, plus the class
constants and the global flag, which are constant over the instance's life). -/
structure TimeLimit where
  start_ns : ℤ
  last_ns : ℤ
  limit_ns : ℤ
  safety_seconds : ℚ       -- kSafetyBufferSeconds (value defined in the missing .cc)
  safety_buffer_ns : ℤ
  history_size : ℕ         -- kHistorySize (value defined in the missing .cc)
  running_max : List ℤ
  use_usertime : Bool      -- FLAGS_time_limit_use_usertime
  limit_in_seconds : Dbl   -- limit_in_seconds_ (only read when use_usertime)
  deterministic_limit : Dbl
  elapsed_deterministic_time : ℚ
deriving DecidableEq, Repr

namespace TimeLimit

/-- The constructor `TimeLimit::TimeLimit(limit_in_seconds, deterministic_limit)`.
`limit_ns_` saturates to `kint64max` when `limit_in_seconds >= 1e-9 * (kint64max -
start_ns)` (which holds in particular for an infinite limit); otherwise it is
`static_cast<int64>(limit_in_seconds * 1e9) + start_ns`. -/
def init (use_usertime : Bool) (safety_seconds : ℚ) (history_size : ℕ)
    (start_ns : ℤ) (limit_in_seconds deterministic_limit : Dbl) : TimeLimit :=
  { start_ns := start_ns
    last_ns := start_ns
    limit_ns :=
      if limit_in_seconds.geQ (((kint64max - start_ns : ℤ) : ℚ) / 1000000000) then
        kint64max
      else
        limit_in_seconds.toNs + start_ns
    safety_seconds := safety_seconds
    safety_buffer_ns := truncQ (safety_seconds * 1000000000)
    history_size := history_size
    running_max := []
    use_usertime := use_usertime
    limit_in_seconds := limit_in_seconds
    deterministic_limit := deterministic_limit
    elapsed_deterministic_time := 0 }

/-- `GetDeterministicTimeLeft()`: `std::max(0.0, deterministic_limit_ -
elapsed_deterministic_time_)`. -/
def GetDeterministicTimeLeft (s : TimeLimit) : Dbl :=
  (s.deterministic_limit.sub s.elapsed_deterministic_time).max0

/-- `AdvanceDeterministicTime(deterministic_duration)` (the state change;
the `DCHECK` is modelled by `advanceDCheckOK` below). -/
def AdvanceDeterministicTime (s : TimeLimit) (deterministic_duration : ℚ) : TimeLimit :=
  { s with elapsed_deterministic_time :=
      s.elapsed_deterministic_time + deterministic_duration }

/-- The condition checked by `DCHECK_LE(0.0, deterministic_duration)` at the top of
`AdvanceDeterministicTime` (an assertion in debug builds; `DCHECK` itself comes
from `base/logging.h`, not among the given sources). -/
def advanceDCheckOK (deterministic_duration : ℚ) : Bool :=
  decide (0 ≤ deterministic_duration)

/-- `GetElapsedDeterministicTime()`. -/
def GetElapsedDeterministicTime (s : TimeLimit) : ℚ :=
  s.elapsed_deterministic_time

/-- `GetElapsedTime()`: `1e-9 * (GetCurrentTimeNanos() - start_ns_)`. -/
def GetElapsedTime (s : TimeLimit) (now_ns : ℤ) : ℚ :=
  ((now_ns - s.start_ns : ℤ) : ℚ) / 1000000000

/-- The first half of the wall-clock part of `LimitReached()`: record
`max(safety_buffer_ns_, current_ns - last_ns_)` into the running max and set
`last_ns_ = current_ns`. -/
def pushHist (s : TimeLimit) (now_ns : ℤ) : TimeLimit :=
  { s with
    running_max :=
      RunningMax.add s.history_size s.running_max
        (max s.safety_buffer_ns (now_ns - s.last_ns))
    last_ns := now_ns }

/-- `LimitReached()`.  `now_ns` is the reading of `base::GetCurrentTimeNanos()`
and `user_seconds` the reading of `user_timer_.Get()` during this call (the
latter is only consulted when `use_usertime`).  Returns the result and the
updated state. -/
def LimitReached (s : TimeLimit) (now_ns : ℤ) (user_seconds : ℚ) : Bool × TimeLimit :=
  if s.GetDeterministicTimeLeft.leZero then
    (true, s)
  else
    let s1 := s.pushHist now_ns
    if s1.limit_ns ≤ now_ns + RunningMax.currentMax s1.running_max then
      if s1.use_usertime then
        if (s1.limit_in_seconds.sub user_seconds).gtQ s1.safety_seconds then
          (false, { s1 with limit_ns := (s1.limit_in_seconds.sub user_seconds).toNs + s1.last_ns })
        else
          (true, { s1 with limit_ns := 0 })
      else
        (true, { s1 with limit_ns := 0 })
    else
      (false, s1)

/-- `GetTimeLeft()`.  Takes the clock and user-timer readings as inputs. -/
def GetTimeLeft (s : TimeLimit) (now_ns : ℤ) (user_seconds : ℚ) : Dbl :=
  if s.limit_ns = kint64max then .inf
  else if s.limit_ns - now_ns < 0 then .fin 0
  else if s.use_usertime then (s.limit_in_seconds.sub user_seconds).max0
  else .fin (((s.limit_ns - now_ns : ℤ) : ℚ) / 1000000000)

end TimeLimit

/-- One externally visible operation on a `TimeLimit` instance, together with the
environment readings it consumes. -/
inductive Ev where
  | check (now_ns : ℤ) (user_seconds : ℚ) : Ev
  | advance (d : ℚ) : Ev
deriving DecidableEq, Repr

/-- Apply one operation (dropping the Boolean result of `LimitReached`). -/
def stepEv (s : TimeLimit) : Ev → TimeLimit
  | .check n u => (s.LimitReached n u).2
  | .advance d => s.AdvanceDeterministicTime d

/-- Run a sequence of operations. -/
def runEvs (s : TimeLimit) : List Ev → TimeLimit
  | [] => s
  | e :: r => runEvs (stepEv s e) r

/-- Environment well-formedness along a trace: `AdvanceDeterministicTime`
arguments are non-negative (the documented precondition), the wall clock is
monotone (clock readings never go below `last_ns_`), and the user timer is
monotone.  `last_user` is the previous user-timer reading. -/
def envOK (s : TimeLimit) (last_user : ℚ) : List Ev → Bool
  | [] => true
  | .advance d :: r => decide (0 ≤ d) && envOK (s.AdvanceDeterministicTime d) last_user r
  | .check n u :: r =>
      decide (s.last_ns ≤ n) && decide (last_user ≤ u) &&
        envOK (s.LimitReached n u).2 u r

/-- The user-timer reading after a trace (used to thread monotonicity). -/
def lastUser (last_user : ℚ) : List Ev → ℚ
  | [] => last_user
  | .check _ u :: r => lastUser u r
  | .advance _ :: r => lastUser last_user r

/-- Sum of all `AdvanceDeterministicTime` arguments in a trace. -/
def sumAdvance : List Ev → ℚ
  | [] => 0
  | .advance d :: r => d + sumAdvance r
  | .check _ _ :: r => sumAdvance r

/-- All `AdvanceDeterministicTime` arguments in a trace are non-negative. -/
def advNonneg : List Ev → Bool
  | [] => true
  | .advance d :: r => decide (0 ≤ d) && advNonneg r
  | .check _ _ :: r => advNonneg r

/-- Consecutive `LimitReached` calls are spaced by at most `delta_seconds`
(starting from the reference instant `last_ns`). -/
def spacedBy (last_ns : ℤ) (delta_seconds : ℚ) : List Ev → Bool
  | [] => true
  | .advance _ :: r => spacedBy last_ns delta_seconds r
  | .check n _ :: r =>
      decide (((n - last_ns : ℤ) : ℚ) ≤ delta_seconds * 1000000000) &&
        spacedBy n delta_seconds r

/-- All clock readings in the trace are small enough that `current_ns +
running-max` stays below `kint64max` (true of any realistic clock: readings up
to about 146 years in nanoseconds). -/
def boundedChecks (safety_ns : ℤ) : List Ev → Bool
  | [] => true
  | .advance _ :: r => boundedChecks safety_ns r
  | .check n _ :: r => decide (2 * n + safety_ns < kint64max) && boundedChecks safety_ns r

/-! ## Basic lemmas -/

theorem foldl_max_init_le (l : List ℤ) (a : ℤ) : a ≤ l.foldl max a := by
  induction l generalizing a with
  | nil => exact le_refl a
  | cons b l ih =>
      calc a ≤ max a b := le_max_left a b
        _ ≤ (b :: l).foldl max a := by simpa using ih (max a b)

theorem foldl_max_le (l : List ℤ) (a B : ℤ) (ha : a ≤ B) (h : ∀ x ∈ l, x ≤ B) :
    l.foldl max a ≤ B := by
  induction l generalizing a with
  | nil => exact ha
  | cons b l ih =>
      simp only [List.foldl_cons]
      exact ih (max a b) (max_le ha (h b (List.mem_cons_self b l)))
        (fun x hx => h x (List.mem_cons_of_mem b hx))

theorem mem_le_foldl_max (l : List ℤ) (a : ℤ) : ∀ x ∈ l, x ≤ l.foldl max a := by
  induction l generalizing a with
  | nil => intro x hx; simp at hx
  | cons b l ih =>
      intro x hx
      rcases List.mem_cons.1 hx with h | h
      · subst h
        calc x ≤ max a x := le_max_right a x
          _ ≤ (x :: l).foldl max a := by simpa using foldl_max_init_le l (max a x)
      · simpa using ih (max a b) x h

theorem currentMax_head_le (x : ℤ) (xs : List ℤ) :
    x ≤ RunningMax.currentMax (x :: xs) := by
  simpa [RunningMax.currentMax] using foldl_max_init_le xs x

theorem currentMax_le (x B : ℤ) (xs : List ℤ) (hx : x ≤ B) (h : ∀ y ∈ xs, y ≤ B) :
    RunningMax.currentMax (x :: xs) ≤ B := by
  simpa [RunningMax.currentMax] using foldl_max_le xs x B hx h

theorem truncQ_nonneg {q : ℚ} (h : 0 ≤ q) : 0 ≤ truncQ q := by
  simp only [truncQ, if_pos h]
  exact_mod_cast Int.floor_nonneg.2 h

theorem truncQ_le {q : ℚ} (h : 0 ≤ q) : (truncQ q : ℚ) ≤ q := by
  simp only [truncQ, if_pos h]
  exact Int.floor_le q

theorem Dbl.gtQ_anti {a : Dbl} {c u v : ℚ} (huv : u ≤ v)
    (h : (a.sub u).gtQ c = false) : (a.sub v).gtQ c = false := by
  cases a with
  | inf => simp [Dbl.sub, Dbl.gtQ] at h
  | fin q =>
      simp only [Dbl.sub, Dbl.gtQ, decide_eq_false_iff_not, not_lt] at h ⊢
      linarith

/-- The deterministic budget is exhausted: `GetDeterministicTimeLeft() <= 0.0`. -/
def detExhausted (s : TimeLimit) : Prop :=
  s.GetDeterministicTimeLeft.leZero = true

instance (s : TimeLimit) : Decidable (detExhausted s) := by
  unfold detExhausted; infer_instance

theorem detExhausted_iff (s : TimeLimit) :
    detExhausted s ↔
      ∃ q, s.deterministic_limit = .fin q ∧ q ≤ s.elapsed_deterministic_time := by
  cases h : s.deterministic_limit with
  | inf =>
      simp [detExhausted, TimeLimit.GetDeterministicTimeLeft, h, Dbl.sub, Dbl.max0,
        Dbl.leZero]
  | fin q =>
      simp only [detExhausted, TimeLimit.GetDeterministicTimeLeft, h, Dbl.sub, Dbl.max0,
        Dbl.leZero, decide_eq_true_eq]
      constructor
      · intro hle
        exact ⟨q, rfl, by have := le_trans (le_max_right 0 _) hle; linarith⟩
      · rintro ⟨q2, hq2, hle⟩
        cases hq2
        simp only [max_le_iff, le_refl, true_and]
        linarith

theorem detExhausted_advance {s : TimeLimit} {d : ℚ} (hd : 0 ≤ d)
    (h : detExhausted s) : detExhausted (s.AdvanceDeterministicTime d) := by
  rw [detExhausted_iff] at h ⊢
  obtain ⟨q, hq, hle⟩ := h
  exact ⟨q, hq, by simp [TimeLimit.AdvanceDeterministicTime]; linarith⟩

/-! ## Shape of the state after one `LimitReached` call -/

theorem LimitReached_det {s : TimeLimit} (n : ℤ) (u : ℚ) (h : detExhausted s) :
    s.LimitReached n u = (true, s) := by
  simp [TimeLimit.LimitReached, detExhausted] at h ⊢
  simp [h]

theorem LimitReached_snd_cases (s : TimeLimit) (n : ℤ) (u : ℚ) :
    (s.LimitReached n u).2 = s ∨
      ∃ L, (s.LimitReached n u).2 = { s.pushHist n with limit_ns := L } := by
  by_cases h : detExhausted s
  · left; rw [LimitReached_det n u h]
  · right
    simp only [TimeLimit.LimitReached]
    rw [if_neg (by simpa [detExhausted] using h)]
    split
    · split
      · split
        · exact ⟨_, rfl⟩
        · exact ⟨0, rfl⟩
      · exact ⟨0, rfl⟩
    · exact ⟨(s.pushHist n).limit_ns, rfl⟩

theorem stepEv_const_fields (s : TimeLimit) (e : Ev) :
    (stepEv s e).start_ns = s.start_ns ∧
    (stepEv s e).safety_seconds = s.safety_seconds ∧
    (stepEv s e).safety_buffer_ns = s.safety_buffer_ns ∧
    (stepEv s e).history_size = s.history_size ∧
    (stepEv s e).use_usertime = s.use_usertime ∧
    (stepEv s e).limit_in_seconds = s.limit_in_seconds ∧
    (stepEv s e).deterministic_limit = s.deterministic_limit := by
  cases e with
  | advance d => simp [stepEv, TimeLimit.AdvanceDeterministicTime]
  | check n u =>
      rcases LimitReached_snd_cases s n u with h | ⟨L, h⟩ <;>
        simp [stepEv, h, TimeLimit.pushHist]

theorem LimitReached_elapsed (s : TimeLimit) (n : ℤ) (u : ℚ) :
    ((s.LimitReached n u).2).elapsed_deterministic_time =
      s.elapsed_deterministic_time := by
  rcases LimitReached_snd_cases s n u with h | ⟨L, h⟩ <;> simp [h, TimeLimit.pushHist]

theorem runEvs_elapsed (s : TimeLimit) (evs : List Ev) :
    (runEvs s evs).elapsed_deterministic_time =
      s.elapsed_deterministic_time + sumAdvance evs := by
  induction evs generalizing s with
  | nil => simp [runEvs, sumAdvance]
  | cons e r ih =>
      cases e with
      | check n u =>
          simp [runEvs, sumAdvance, stepEv, ih, LimitReached_elapsed]
      | advance d =>
          simp [runEvs, sumAdvance, stepEv, ih, TimeLimit.AdvanceDeterministicTime]
          ring

theorem runEvs_const_fields (s : TimeLimit) (evs : List Ev) :
    (runEvs s evs).start_ns = s.start_ns ∧
    (runEvs s evs).safety_seconds = s.safety_seconds ∧
    (runEvs s evs).safety_buffer_ns = s.safety_buffer_ns ∧
    (runEvs s evs).history_size = s.history_size ∧
    (runEvs s evs).use_usertime = s.use_usertime ∧
    (runEvs s evs).limit_in_seconds = s.limit_in_seconds ∧
    (runEvs s evs).deterministic_limit = s.deterministic_limit := by
  induction evs generalizing s with
  | nil => simp [runEvs]
  | cons e r ih =>
      have h1 := stepEv_const_fields s e
      have h2 := ih (stepEv s e)
      simp only [runEvs]
      exact ⟨h2.1.trans h1.1, h2.2.1.trans h1.2.1, h2.2.2.1.trans h1.2.2.1,
        h2.2.2.2.1.trans h1.2.2.2.1, h2.2.2.2.2.1.trans h1.2.2.2.2.1,
        h2.2.2.2.2.2.1.trans h1.2.2.2.2.2.1, h2.2.2.2.2.2.2.trans h1.2.2.2.2.2.2⟩

theorem runEvs_append (s : TimeLimit) (a b : List Ev) :
    runEvs s (a ++ b) = runEvs (runEvs s a) b := by
  induction a generalizing s with
  | nil => simp [runEvs]
  | cons e r ih => simp [runEvs, ih]

theorem envOK_append (s : TimeLimit) (lu : ℚ) (a b : List Ev) :
    envOK s lu (a ++ b) =
      (envOK s lu a && envOK (runEvs s a) (lastUser lu a) b) := by
  induction a generalizing s lu with
  | nil => simp [envOK, runEvs, lastUser]
  | cons e r ih =>
      cases e with
      | check n u => simp [envOK, runEvs, lastUser, stepEv, ih, Bool.and_assoc]
      | advance d => simp [envOK, runEvs, lastUser, stepEv, ih, Bool.and_assoc]

/-! ## The latch invariant

Once `LimitReached()` has returned true, one of two stable conditions holds:
either the deterministic budget is exhausted (and stays exhausted because the
deterministic clock only moves forward), or `limit_ns_` was zeroed by the
wall-clock branch and — in usertime mode — the user-time budget was already
within the safety buffer, so the extension branch can never fire again. -/

/-- The state after the wall-clock branch of `LimitReached()` has latched:
`limit_ns_ = 0`, plus the side conditions that keep it latched (`last_user` is
the user-timer reading of the latching call). -/
def WallLatched (s : TimeLimit) (last_user : ℚ) : Prop :=
  s.limit_ns = 0 ∧ 0 ≤ s.safety_buffer_ns ∧ 0 ≤ s.last_ns ∧
    (s.use_usertime = true →
      (s.limit_in_seconds.sub last_user).gtQ s.safety_seconds = false)

/-- Some `LimitReached()` call has returned true on this instance. -/
def Latched (s : TimeLimit) (last_user : ℚ) : Prop :=
  detExhausted s ∨ WallLatched s last_user

theorem wallLatched_check {s : TimeLimit} {lu : ℚ} (n : ℤ) (u : ℚ)
    (h : WallLatched s lu) (hdet : ¬ detExhausted s) (hn : s.last_ns ≤ n) (hu : lu ≤ u) :
    (s.LimitReached n u).1 = true ∧ WallLatched (s.LimitReached n u).2 u := by
  obtain ⟨hlim, hsafe, hlast, huser⟩ := h
  have hn0 : 0 ≤ n := le_trans hlast hn
  have hgap : 0 ≤ max s.safety_buffer_ns (n - s.last_ns) :=
    le_trans hsafe (le_max_left _ _)
  have hwall : (s.pushHist n).limit_ns ≤
      n + RunningMax.currentMax (s.pushHist n).running_max := by
    simp only [TimeLimit.pushHist, hlim]
    have : 0 ≤ RunningMax.currentMax
        (RunningMax.add s.history_size s.running_max
          (max s.safety_buffer_ns (n - s.last_ns))) := by
      unfold RunningMax.add
      cases hK : s.history_size with
      | zero => simp [RunningMax.currentMax]
      | succ k =>
          simp only [List.take_succ_cons]
          exact le_trans hgap (currentMax_head_le _ _)
    omega
  simp only [TimeLimit.LimitReached]
  rw [if_neg (by simpa [detExhausted] using hdet)]
  rw [if_pos hwall]
  by_cases huu : s.use_usertime = true
  · have hgt : ((s.pushHist n).limit_in_seconds.sub u).gtQ
        (s.pushHist n).safety_seconds = false := by
      simp only [TimeLimit.pushHist]
      exact Dbl.gtQ_anti hu (huser huu)
    rw [if_pos (by simpa [TimeLimit.pushHist] using huu), if_neg (by simp [hgt])]
    refine ⟨rfl, rfl, hsafe, by simp [TimeLimit.pushHist, hn0], ?_⟩
    intro _
    simpa [TimeLimit.pushHist] using hgt
  · rw [if_neg (by simpa [TimeLimit.pushHist] using huu)]
    refine ⟨rfl, rfl, hsafe, by simp [TimeLimit.pushHist, hn0], ?_⟩
    intro hc
    simp [TimeLimit.pushHist] at hc
    exact absurd hc huu

theorem latched_check {s : TimeLimit} {lu : ℚ} (n : ℤ) (u : ℚ)
    (h : Latched s lu) (hn : s.last_ns ≤ n) (hu : lu ≤ u) :
    (s.LimitReached n u).1 = true ∧ Latched (s.LimitReached n u).2 u := by
  rcases h with hdet | hwall
  · rw [LimitReached_det n u hdet]
    exact ⟨rfl, Or.inl hdet⟩
  · by_cases hdet : detExhausted s
    · rw [LimitReached_det n u hdet]
      exact ⟨rfl, Or.inl hdet⟩
    · obtain ⟨h1, h2⟩ := wallLatched_check n u hwall hdet hn hu
      exact ⟨h1, Or.inr h2⟩

theorem wallLatched_advance {s : TimeLimit} {lu : ℚ} (d : ℚ)
    (h : WallLatched s lu) : WallLatched (s.AdvanceDeterministicTime d) lu := by
  obtain ⟨h1, h2, h3, h4⟩ := h
  exact ⟨h1, h2, h3, by simpa [TimeLimit.AdvanceDeterministicTime] using h4⟩

theorem latched_step {s : TimeLimit} {lu : ℚ} (e : Ev)
    (h : Latched s lu)
    (he : envOK s lu [e] = true) :
    Latched (stepEv s e) (lastUser lu [e]) := by
  cases e with
  | advance d =>
      simp only [envOK, Bool.and_eq_true, decide_eq_true_eq] at he
      rcases h with hdet | hwall
      · exact Or.inl (detExhausted_advance he.1 hdet)
      · exact Or.inr (wallLatched_advance d hwall)
  | check n u =>
      simp only [envOK, Bool.and_eq_true, decide_eq_true_eq] at he
      exact (latched_check n u h he.1.1 he.1.2).2

theorem latched_run {s : TimeLimit} {lu : ℚ} (evs : List Ev)
    (h : Latched s lu) (he : envOK s lu evs = true) :
    Latched (runEvs s evs) (lastUser lu evs) := by
  induction evs generalizing s lu with
  | nil => simpa [runEvs, lastUser]
  | cons e r ih =>
      cases e with
      | advance d =>
          simp only [envOK, Bool.and_eq_true, decide_eq_true_eq] at he
          simp only [runEvs, stepEv, lastUser]
          exact ih (by
            rcases h with hdet | hwall
            · exact Or.inl (detExhausted_advance he.1 hdet)
            · exact Or.inr (wallLatched_advance d hwall)) he.2
      | check n u =>
          simp only [envOK, Bool.and_eq_true, decide_eq_true_eq] at he
          simp only [runEvs, stepEv, lastUser]
          exact ih (latched_check n u h he.1.1 he.1.2).2 he.2

/-! ## Structural invariant of reachable states -/

/-- Structural facts maintained by every operation (given a well-formed
environment): the safety buffer is non-negative, the instance was created at a
non-negative clock reading, `last_ns_` never falls below `start_ns_`, and every
recorded inter-call gap lies between `safety_buffer_ns_` and
`max(safety_buffer_ns_, last_ns_ - start_ns_)`. -/
def BaseInv (s : TimeLimit) : Prop :=
  0 ≤ s.safety_buffer_ns ∧ 0 ≤ s.start_ns ∧ s.start_ns ≤ s.last_ns ∧
    ∀ x ∈ s.running_max,
      s.safety_buffer_ns ≤ x ∧ x ≤ max s.safety_buffer_ns (s.last_ns - s.start_ns)

theorem baseInv_init (uu : Bool) (ss : ℚ) (K : ℕ) (st : ℤ) (lim dlim : Dbl)
    (hss : 0 ≤ ss) (hst : 0 ≤ st) :
    BaseInv (TimeLimit.init uu ss K st lim dlim) := by
  refine ⟨?_, hst, le_refl _, by simp [TimeLimit.init]⟩
  exact truncQ_nonneg (by positivity)

theorem baseInv_check {s : TimeLimit} (n : ℤ) (u : ℚ)
    (h : BaseInv s) (hn : s.last_ns ≤ n) : BaseInv (s.LimitReached n u).2 := by
  obtain ⟨h1, h2, h3, h4⟩ := h
  rcases LimitReached_snd_cases s n u with hc | ⟨L, hc⟩
  · rw [hc]; exact ⟨h1, h2, h3, h4⟩
  · rw [hc]
    refine ⟨h1, h2, le_trans h3 hn, ?_⟩
    intro x hx
    simp only [TimeLimit.pushHist, RunningMax.add] at hx
    have hx2 : x ∈ max s.safety_buffer_ns (n - s.last_ns) :: s.running_max :=
      List.mem_of_mem_take hx
    simp only [TimeLimit.pushHist]
    rcases List.mem_cons.1 hx2 with hx3 | hx3
    · subst hx3
      constructor
      · exact le_max_left _ _
      · exact max_le_max (le_refl _) (by omega)
    · obtain ⟨hlo, hhi⟩ := h4 x hx3
      exact ⟨hlo, le_trans hhi (max_le_max (le_refl _) (by omega))⟩

theorem baseInv_run {s : TimeLimit} {lu : ℚ} (evs : List Ev)
    (h : BaseInv s) (he : envOK s lu evs = true) : BaseInv (runEvs s evs) := by
  induction evs generalizing s lu with
  | nil => simpa [runEvs]
  | cons e r ih =>
      cases e with
      | advance d =>
          simp only [envOK, Bool.and_eq_true, decide_eq_true_eq] at he
          simp only [runEvs, stepEv]
          refine ih ?_ he.2
          obtain ⟨h1, h2, h3, h4⟩ := h
          exact ⟨h1, h2, h3, by simpa [TimeLimit.AdvanceDeterministicTime] using h4⟩
      | check n u =>
          simp only [envOK, Bool.and_eq_true, decide_eq_true_eq] at he
          simp only [runEvs, stepEv]
          exact ih (baseInv_check n u h he.1.1) he.2

/-- Branch-level characterisation of `LimitReached()` when the deterministic
budget is not exhausted, with every test phrased on the fields of the incoming
state (`pushHist` changes neither `limit_ns_` nor any constant field). -/
theorem LimitReached_spec (s : TimeLimit) (n : ℤ) (u : ℚ) (hdet : ¬ detExhausted s) :
    s.LimitReached n u =
      if s.limit_ns ≤ n + RunningMax.currentMax
          (RunningMax.add s.history_size s.running_max
            (max s.safety_buffer_ns (n - s.last_ns))) then
        if s.use_usertime = true then
          if (s.limit_in_seconds.sub u).gtQ s.safety_seconds = true then
            (false, { s.pushHist n with limit_ns := (s.limit_in_seconds.sub u).toNs + n })
          else (true, { s.pushHist n with limit_ns := 0 })
        else (true, { s.pushHist n with limit_ns := 0 })
      else (false, s.pushHist n) := by
  simp only [TimeLimit.LimitReached]
  rw [if_neg (by simpa [detExhausted] using hdet)]
  rfl

/-- If a `LimitReached` call returns true, the resulting state is latched. -/
theorem true_latches {s : TimeLimit} (n : ℤ) (u : ℚ)
    (h : BaseInv s) (hn : s.last_ns ≤ n)
    (htrue : (s.LimitReached n u).1 = true) :
    Latched (s.LimitReached n u).2 u := by
  by_cases hdet : detExhausted s
  · rw [LimitReached_det n u hdet]
    exact Or.inl hdet
  · obtain ⟨h1, h2, h3, -⟩ := h
    rw [LimitReached_spec s n u hdet] at htrue ⊢
    by_cases hwall : s.limit_ns ≤ n + RunningMax.currentMax
        (RunningMax.add s.history_size s.running_max
          (max s.safety_buffer_ns (n - s.last_ns)))
    · rw [if_pos hwall] at htrue ⊢
      by_cases huu : s.use_usertime = true
      · rw [if_pos huu] at htrue ⊢
        by_cases hgt : (s.limit_in_seconds.sub u).gtQ s.safety_seconds = true
        · rw [if_pos hgt] at htrue; simp at htrue
        · rw [if_neg hgt] at htrue ⊢
          refine Or.inr ⟨rfl, h1, ?_, ?_⟩
          · simp only [TimeLimit.pushHist]; omega
          · intro _
            exact Bool.eq_false_iff.mpr hgt
      · rw [if_neg huu] at htrue ⊢
        refine Or.inr ⟨rfl, h1, ?_, ?_⟩
        · simp only [TimeLimit.pushHist]; omega
        · intro hc
          exact absurd hc huu
    · rw [if_neg hwall] at htrue; simp at htrue

/-- C1: Monotonic latch.  For every sequence of operations on a single
`TimeLimit` instance (with non-negative `AdvanceDeterministicTime` arguments,
a monotone clock and a monotone user timer, per `envOK`), once `LimitReached()`
has returned true, every subsequent call to `LimitReached()` on that instance
also returns true, regardless of further `AdvanceDeterministicTime` calls or
elapsed wall time. -/
theorem limitReached_monotonic_latch (uu : Bool) (ss : ℚ) (K : ℕ) (st : ℤ) (lim dlim : Dbl)
    (evs1 evs2 : List Ev) (n n2 : ℤ) (u u2 : ℚ)
    (hss : 0 ≤ ss) (hst : 0 ≤ st)
    (henv : envOK (TimeLimit.init uu ss K st lim dlim) 0
        (evs1 ++ Ev.check n u :: (evs2 ++ [Ev.check n2 u2])) = true)
    (htrue : ((runEvs (TimeLimit.init uu ss K st lim dlim) evs1).LimitReached n u).1
        = true) :
    ((runEvs (TimeLimit.init uu ss K st lim dlim) (evs1 ++ Ev.check n u :: evs2)).LimitReached
        n2 u2).1 = true := by
  rw [envOK_append, Bool.and_eq_true] at henv
  obtain ⟨henv1, henv2⟩ := henv
  simp only [envOK, Bool.and_eq_true, decide_eq_true_eq] at henv2
  obtain ⟨⟨hn, hu⟩, henv3⟩ := henv2
  rw [envOK_append, Bool.and_eq_true] at henv3
  obtain ⟨henv4, henv5⟩ := henv3
  simp only [envOK, Bool.and_eq_true, decide_eq_true_eq] at henv5
  obtain ⟨⟨hn2, hu2⟩, -⟩ := henv5
  have hbase : BaseInv (runEvs (TimeLimit.init uu ss K st lim dlim) evs1) :=
    baseInv_run evs1 (baseInv_init uu ss K st lim dlim hss hst) henv1
  have hlatch := true_latches n u hbase hn htrue
  have hlatch2 := latched_run evs2 hlatch henv4
  have hrw : runEvs (TimeLimit.init uu ss K st lim dlim) (evs1 ++ Ev.check n u :: evs2) =
      runEvs ((runEvs (TimeLimit.init uu ss K st lim dlim) evs1).LimitReached n u).2 evs2 := by
    rw [runEvs_append]
    simp [runEvs, stepEv]
  rw [hrw]
  exact (latched_check n2 u2 hlatch2 hn2 hu2).1

/-- Witness for C1 at a concrete trace: limit 0s, first call at 1ns returns
true, the next call at 2ns then also returns true. -/
theorem limitReached_monotonic_latch_witness :
    ((runEvs (TimeLimit.init false 0 2 0 (.fin 0) .inf)
        ([] ++ Ev.check 1 0 :: [])).LimitReached 2 0).1 = true :=
  limitReached_monotonic_latch false 0 2 0 (.fin 0) .inf [] [] 1 2 0 0
    (by norm_num) (by norm_num)
    (by norm_num [envOK, runEvs, stepEv, TimeLimit.init, TimeLimit.LimitReached,
      TimeLimit.GetDeterministicTimeLeft, TimeLimit.pushHist, TimeLimit.AdvanceDeterministicTime,
      RunningMax.add, RunningMax.currentMax, Dbl.sub, Dbl.max0, Dbl.leZero, Dbl.gtQ,
      Dbl.geQ, Dbl.toNs, truncQ, kint64max])
    (by norm_num [envOK, runEvs, stepEv, TimeLimit.init, TimeLimit.LimitReached,
      TimeLimit.GetDeterministicTimeLeft, TimeLimit.pushHist, TimeLimit.AdvanceDeterministicTime,
      RunningMax.add, RunningMax.currentMax, Dbl.sub, Dbl.max0, Dbl.leZero, Dbl.gtQ,
      Dbl.geQ, Dbl.toNs, truncQ, kint64max])

/-- C10: when `LimitReached()` is called while the deterministic budget is
already exhausted, it returns true and leaves the whole state unchanged — in
particular `last_ns_`, `limit_ns_` and the recorded interval history — so
deterministic exhaustion never pollutes the wall-clock state, the gap history,
or a later wall-clock latch decision. -/
theorem det_exhaustion_frame (s : TimeLimit) (n : ℤ) (u : ℚ)
    (h : detExhausted s) :
    (s.LimitReached n u).1 = true ∧
    (s.LimitReached n u).2.last_ns = s.last_ns ∧
    (s.LimitReached n u).2.limit_ns = s.limit_ns ∧
    (s.LimitReached n u).2.running_max = s.running_max ∧
    (s.LimitReached n u).2 = s := by
  rw [LimitReached_det n u h]
  exact ⟨rfl, rfl, rfl, rfl, rfl⟩

/-- Witness for C10: deterministic limit 0 is exhausted from the start. -/
theorem det_exhaustion_frame_witness :
    ((TimeLimit.init false 0 2 0 (.fin 1) (.fin 0)).LimitReached 7 0).1 = true ∧
    ((TimeLimit.init false 0 2 0 (.fin 1) (.fin 0)).LimitReached 7 0).2.last_ns =
      (TimeLimit.init false 0 2 0 (.fin 1) (.fin 0)).last_ns ∧
    ((TimeLimit.init false 0 2 0 (.fin 1) (.fin 0)).LimitReached 7 0).2.limit_ns =
      (TimeLimit.init false 0 2 0 (.fin 1) (.fin 0)).limit_ns ∧
    ((TimeLimit.init false 0 2 0 (.fin 1) (.fin 0)).LimitReached 7 0).2.running_max =
      (TimeLimit.init false 0 2 0 (.fin 1) (.fin 0)).running_max ∧
    ((TimeLimit.init false 0 2 0 (.fin 1) (.fin 0)).LimitReached 7 0).2 =
      TimeLimit.init false 0 2 0 (.fin 1) (.fin 0) :=
  det_exhaustion_frame (TimeLimit.init false 0 2 0 (.fin 1) (.fin 0)) 7 0
    (by norm_num [detExhausted, TimeLimit.init, TimeLimit.GetDeterministicTimeLeft,
      Dbl.sub, Dbl.max0, Dbl.leZero])

/-- C7: `AdvanceDeterministicTime(duration)` adds exactly `duration` to the
elapsed deterministic time — so `GetElapsedDeterministicTime()` equals the sum
of all arguments passed so far — and changes nothing else; the `DCHECK`
precondition check fails exactly on a negative argument. -/
theorem advanceDeterministicTime_spec (s : TimeLimit) (ds : List ℚ) (d : ℚ) :
    (ds.foldl TimeLimit.AdvanceDeterministicTime s).GetElapsedDeterministicTime =
      s.elapsed_deterministic_time + ds.sum ∧
    (s.AdvanceDeterministicTime d).elapsed_deterministic_time =
      s.elapsed_deterministic_time + d ∧
    (s.AdvanceDeterministicTime d).start_ns = s.start_ns ∧
    (s.AdvanceDeterministicTime d).last_ns = s.last_ns ∧
    (s.AdvanceDeterministicTime d).limit_ns = s.limit_ns ∧
    (s.AdvanceDeterministicTime d).safety_seconds = s.safety_seconds ∧
    (s.AdvanceDeterministicTime d).safety_buffer_ns = s.safety_buffer_ns ∧
    (s.AdvanceDeterministicTime d).history_size = s.history_size ∧
    (s.AdvanceDeterministicTime d).running_max = s.running_max ∧
    (s.AdvanceDeterministicTime d).use_usertime = s.use_usertime ∧
    (s.AdvanceDeterministicTime d).limit_in_seconds = s.limit_in_seconds ∧
    (s.AdvanceDeterministicTime d).deterministic_limit = s.deterministic_limit ∧
    (TimeLimit.advanceDCheckOK d = false ↔ d < 0) := by
  refine ⟨?_, rfl, rfl, rfl, rfl, rfl, rfl, rfl, rfl, rfl, rfl, rfl, ?_⟩
  · induction ds generalizing s with
    | nil => simp [TimeLimit.GetElapsedDeterministicTime]
    | cons a l ih =>
        simp only [List.foldl_cons, List.sum_cons]
        rw [ih]
        simp [TimeLimit.AdvanceDeterministicTime]
        ring
  · simp [TimeLimit.advanceDCheckOK]

/-- C3: Deterministic dominance.  With `deterministic_limit = D`, after any
sequence of operations whose non-negative `AdvanceDeterministicTime` arguments
sum to at least `D`, the very next `LimitReached()` call returns true,
independent of the wall-clock limit (even if infinite) and of the clock and
user-timer readings. -/
theorem deterministic_dominance (uu : Bool) (ss : ℚ) (K : ℕ) (st : ℤ)
    (lim : Dbl) (D : ℚ) (evs : List Ev) (n : ℤ) (u : ℚ)
    (hnn : advNonneg evs = true)
    (hsum : D ≤ sumAdvance evs) :
    ((runEvs (TimeLimit.init uu ss K st lim (.fin D)) evs).LimitReached n u).1 = true := by
  have hdet : detExhausted (runEvs (TimeLimit.init uu ss K st lim (.fin D)) evs) := by
    rw [detExhausted_iff]
    refine ⟨D, ?_, ?_⟩
    · rw [(runEvs_const_fields _ evs).2.2.2.2.2.2]
      simp [TimeLimit.init]
    · rw [runEvs_elapsed]
      simp only [TimeLimit.init]
      linarith
  rw [LimitReached_det n u hdet]

/-- Witness for C3: deterministic limit 1, a single advance by 2, infinite
wall-clock limit. -/
theorem deterministic_dominance_witness :
    ((runEvs (TimeLimit.init false 0 2 0 .inf (.fin 1))
        [Ev.advance 2]).LimitReached 0 0).1 = true :=
  deterministic_dominance false 0 2 0 .inf 1 [Ev.advance 2] 0 0
    (by norm_num [advNonneg]) (by norm_num [sumAdvance])

/-! ## The conservatism bound (wall-clock mode) -/

theorem currentMax_add_nonneg (K : ℕ) (l : List ℤ) {g : ℤ} (hg : 0 ≤ g) :
    0 ≤ RunningMax.currentMax (RunningMax.add K l g) := by
  unfold RunningMax.add
  cases K with
  | zero => simp [RunningMax.currentMax]
  | succ k =>
      simp only [List.take_succ_cons]
      exact le_trans hg (currentMax_head_le _ _)

theorem limit_ns_check_nonusertime {s : TimeLimit} (n : ℤ) (u : ℚ)
    (h : s.use_usertime = false) :
    (s.LimitReached n u).2.limit_ns = s.limit_ns ∨
      (s.LimitReached n u).2.limit_ns = 0 := by
  by_cases hdet : detExhausted s
  · rw [LimitReached_det n u hdet]; exact Or.inl rfl
  · rw [LimitReached_spec s n u hdet]
    split
    · rw [if_neg (by simp [h])]
      exact Or.inr rfl
    · exact Or.inl rfl

theorem limit_ns_run_nonusertime {s : TimeLimit} (evs : List Ev)
    (h : s.use_usertime = false) :
    (runEvs s evs).limit_ns = s.limit_ns ∨ (runEvs s evs).limit_ns = 0 := by
  induction evs generalizing s with
  | nil => exact Or.inl rfl
  | cons e r ih =>
      cases e with
      | advance d =>
          simp only [runEvs, stepEv]
          rcases ih (s := s.AdvanceDeterministicTime d)
              (by simpa [TimeLimit.AdvanceDeterministicTime] using h) with h2 | h2
          · exact Or.inl (by simpa [TimeLimit.AdvanceDeterministicTime] using h2)
          · exact Or.inr h2
      | check n u =>
          simp only [runEvs, stepEv]
          have huse : ((s.LimitReached n u).2).use_usertime = false := by
            have := (stepEv_const_fields s (Ev.check n u)).2.2.2.2.1
            simp only [stepEv] at this
            rw [this]; exact h
          rcases ih (s := (s.LimitReached n u).2) huse with h2 | h2
          · rcases limit_ns_check_nonusertime n u h with h3 | h3
            · exact Or.inl (h2.trans h3)
            · exact Or.inr (h2.trans h3)
          · exact Or.inr h2

/-- C2: Conservatism bound.  For a tracker constructed with a finite wall-clock
limit `L` (CPU-time mode off), with consecutive `LimitReached()` calls spaced by
at most `delta` seconds and `delta ≤ L`, `LimitReached()` never reports
not-exhausted at a call whose clock reading is at least `L + safety_margin`
seconds past construction — and, in particular, returns exhausted at any call
whose clock reading is at or past `limit_ns_` (the `hlate` disjunction covers
both clauses; the proof needs no spacing hypothesis). -/
theorem limitReached_conservatism_bound (ss : ℚ) (K : ℕ) (st : ℤ) (L : ℚ)
    (dlim : Dbl) (evs : List Ev) (n : ℤ) (u : ℚ) (delta : ℚ)
    (hss : 0 ≤ ss) (hst : 0 ≤ st) (hL : 0 ≤ L)
    (henv : envOK (TimeLimit.init false ss K st (.fin L) dlim) 0
        (evs ++ [Ev.check n u]) = true)
    (hspace : spacedBy st delta (evs ++ [Ev.check n u]) = true)
    (hdelta : delta ≤ L)
    (hlate : (L + ss) * 1000000000 ≤ ((n - st : ℤ) : ℚ) ∨
      (runEvs (TimeLimit.init false ss K st (.fin L) dlim) evs).limit_ns ≤ n) :
    ((runEvs (TimeLimit.init false ss K st (.fin L) dlim) evs).LimitReached n u).1
      = true := by
  rw [envOK_append, Bool.and_eq_true] at henv
  obtain ⟨henv1, henv2⟩ := henv
  simp only [envOK, Bool.and_eq_true, decide_eq_true_eq] at henv2
  obtain ⟨⟨hn, -⟩, -⟩ := henv2
  set s0 := TimeLimit.init false ss K st (.fin L) dlim with hs0
  set s1 := runEvs s0 evs with hs1
  by_cases hdet : detExhausted s1
  · rw [LimitReached_det n u hdet]
  · have hbase : BaseInv s1 := baseInv_run evs (baseInv_init _ _ _ _ _ _ hss hst) henv1
    obtain ⟨hsafe, hstart, hlast, -⟩ := hbase
    have hn0 : 0 ≤ n := by
      have h1 : (0:ℤ) ≤ s1.start_ns := by
        rw [hs1, (runEvs_const_fields s0 evs).1, hs0]
        simpa [TimeLimit.init] using hst
      omega
    have hcm : 0 ≤ RunningMax.currentMax
        (RunningMax.add s1.history_size s1.running_max
          (max s1.safety_buffer_ns (n - s1.last_ns))) :=
      currentMax_add_nonneg _ _ (le_trans hsafe (le_max_left _ _))
    have hlim : s1.limit_ns ≤ n := by
      rcases hlate with hlate | hlate
      · have huse : s0.use_usertime = false := by simp [hs0, TimeLimit.init]
        have hstn : s0.start_ns = st := by simp [hs0, TimeLimit.init]
        rcases limit_ns_run_nonusertime evs huse with h2 | h2
        · rw [h2, hs0]
          simp only [TimeLimit.init]
          split
          · -- saturated: limit_ns_ = kint64max, but then n is itself past kint64max
            rename_i hsat
            simp only [Dbl.geQ, decide_eq_true_eq] at hsat
            have h9 : (0:ℚ) < 1000000000 := by norm_num
            have hL9 : (kint64max - st : ℤ) ≤ L * 1000000000 := by
              have := (div_le_iff₀ h9).1 hsat
              exact_mod_cast this
            have : ((kint64max : ℤ) : ℚ) ≤ ((n : ℤ) : ℚ) := by
              push_cast at hlate hL9 ⊢
              nlinarith
            exact_mod_cast this
          · -- regular: limit_ns_ = trunc(L * 1e9) + start_ns <= L*1e9 + start <= n
            have h1 : ((Dbl.fin L).toNs : ℚ) ≤ L * 1000000000 := by
              simpa [Dbl.toNs] using truncQ_le (by positivity)
            have : (((Dbl.fin L).toNs + st : ℤ) : ℚ) ≤ ((n : ℤ) : ℚ) := by
              push_cast at h1 hlate ⊢
              nlinarith
            exact_mod_cast this
        · rw [h2]; exact hn0
      · exact hlate
    rw [LimitReached_spec s1 n u hdet]
    rw [if_pos (by omega)]
    rw [if_neg (by
      have := (runEvs_const_fields s0 evs).2.2.2.2.1
      rw [← hs1] at this
      simp [this, hs0, TimeLimit.init])]

/-- Witness for C2: limit 1s from instant 0, first call at 1e9 ns. -/
theorem limitReached_conservatism_bound_witness :
    ((runEvs (TimeLimit.init false 0 2 0 (.fin 1) .inf) []).LimitReached 1000000000 0).1
      = true :=
  limitReached_conservatism_bound 0 2 0 1 .inf [] 1000000000 0 1
    (by norm_num) (by norm_num) (by norm_num)
    (by norm_num [envOK, runEvs, TimeLimit.init])
    (by norm_num [spacedBy]) (by norm_num) (Or.inl (by norm_num))

/-! ## The infinite-limit identity -/

theorem currentMax_add_le {K : ℕ} {l : List ℤ} {g B : ℤ}
    (hg : g ≤ B) (hB : 0 ≤ B) (hl : ∀ x ∈ l, x ≤ B) :
    RunningMax.currentMax (RunningMax.add K l g) ≤ B := by
  unfold RunningMax.add
  cases K with
  | zero => simpa [RunningMax.currentMax] using hB
  | succ k =>
      simp only [List.take_succ_cons]
      exact currentMax_le g B _ hg (fun y hy => hl y (List.mem_of_mem_take hy))

theorem boundedChecks_append (c : ℤ) (a b : List Ev) :
    boundedChecks c (a ++ b) = (boundedChecks c a && boundedChecks c b) := by
  induction a with
  | nil => simp [boundedChecks]
  | cons e r ih =>
      cases e with
      | check n u => simp [boundedChecks, ih, Bool.and_assoc]
      | advance d => simp [boundedChecks, ih]

/-- When `limit_ns_` is still the `kint64max` sentinel and the clock reading is
realistically bounded, the wall-clock test of `LimitReached()` cannot trip: the
call records the gap and returns false. -/
theorem wall_check_noop {s : TimeLimit} (n : ℤ) (u : ℚ)
    (hinv : BaseInv s) (hn : s.last_ns ≤ n)
    (hb : 2 * n + s.safety_buffer_ns < kint64max)
    (hlim : s.limit_ns = kint64max)
    (hdet : ¬ detExhausted s) :
    s.LimitReached n u = (false, s.pushHist n) := by
  obtain ⟨hsafe, hstart, hlast, hhist⟩ := hinv
  have hwallneg : ¬ (s.limit_ns ≤ n + RunningMax.currentMax
      (RunningMax.add s.history_size s.running_max
        (max s.safety_buffer_ns (n - s.last_ns)))) := by
    intro hwall
    have hcm : RunningMax.currentMax
        (RunningMax.add s.history_size s.running_max
          (max s.safety_buffer_ns (n - s.last_ns))) ≤
        max s.safety_buffer_ns (n - s.start_ns) := by
      refine currentMax_add_le ?_ (le_trans hsafe (le_max_left _ _)) ?_
      · exact max_le_max (le_refl _) (by omega)
      · intro x hx
        exact le_trans (hhist x hx).2 (max_le_max (le_refl _) (by omega))
    have hmax : max s.safety_buffer_ns (n - s.start_ns) ≤
        s.safety_buffer_ns + (n - s.start_ns) := by
      have h1 : s.start_ns ≤ n := le_trans hlast hn
      omega
    omega
  rw [LimitReached_spec s n u hdet, if_neg hwallneg]

theorem limit_run_never {s : TimeLimit} {lu : ℚ} (evs : List Ev)
    (hinv : BaseInv s) (hlim : s.limit_ns = kint64max)
    (henv : envOK s lu evs = true)
    (hb : boundedChecks s.safety_buffer_ns evs = true) :
    (runEvs s evs).limit_ns = kint64max := by
  induction evs generalizing s lu with
  | nil => simpa [runEvs]
  | cons e r ih =>
      cases e with
      | advance d =>
          simp only [envOK, Bool.and_eq_true, decide_eq_true_eq] at henv
          simp only [boundedChecks] at hb
          simp only [runEvs, stepEv]
          refine ih ?_ hlim henv.2 hb
          obtain ⟨h1, h2, h3, h4⟩ := hinv
          exact ⟨h1, h2, h3, by simpa [TimeLimit.AdvanceDeterministicTime] using h4⟩
      | check n u =>
          simp only [envOK, Bool.and_eq_true, decide_eq_true_eq] at henv
          obtain ⟨⟨hn1, hu1⟩, henv2⟩ := henv
          simp only [boundedChecks, Bool.and_eq_true, decide_eq_true_eq] at hb
          simp only [runEvs, stepEv]
          by_cases hdet : detExhausted s
          · have hd := LimitReached_det n u hdet
            rw [hd] at henv2 ⊢
            exact ih hinv hlim (show envOK s u r = true from henv2) hb.2
          · have hno := wall_check_noop n u hinv hn1 hb.1 hlim hdet
            rw [hno] at henv2 ⊢
            have hinv2 : BaseInv (s.pushHist n) := by
              have h2 := baseInv_check n u hinv hn1
              rw [hno] at h2
              exact h2
            exact ih hinv2
              (show (s.pushHist n).limit_ns = kint64max from
                by simpa [TimeLimit.pushHist] using hlim)
              (show envOK (s.pushHist n) u r = true from henv2)
              (show boundedChecks (s.pushHist n).safety_buffer_ns r = true from
                by simpa [TimeLimit.pushHist] using hb.2)

/-- C5: Infinite-limit identity.  For a tracker constructed with an infinite
wall-clock limit (and realistically bounded clock readings), `GetTimeLeft()`
returns infinity on every call, and `LimitReached()` can only return true via
the deterministic-time check, never due to the wall clock alone. -/
theorem infinite_limit_identity (uu : Bool) (ss : ℚ) (K : ℕ) (st : ℤ) (dlim : Dbl)
    (evs : List Ev) (n : ℤ) (u : ℚ)
    (hss : 0 ≤ ss) (hst : 0 ≤ st)
    (henv : envOK (TimeLimit.init uu ss K st .inf dlim) 0
        (evs ++ [Ev.check n u]) = true)
    (hb : boundedChecks (TimeLimit.init uu ss K st .inf dlim).safety_buffer_ns
        (evs ++ [Ev.check n u]) = true) :
    (runEvs (TimeLimit.init uu ss K st .inf dlim) evs).GetTimeLeft n u = .inf ∧
    (((runEvs (TimeLimit.init uu ss K st .inf dlim) evs).LimitReached n u).1 = true →
      detExhausted (runEvs (TimeLimit.init uu ss K st .inf dlim) evs)) := by
  rw [envOK_append, Bool.and_eq_true] at henv
  obtain ⟨henv1, henv2⟩ := henv
  simp only [envOK, Bool.and_eq_true, decide_eq_true_eq] at henv2
  obtain ⟨⟨hn, -⟩, -⟩ := henv2
  rw [boundedChecks_append, Bool.and_eq_true] at hb
  obtain ⟨hb1, hb2⟩ := hb
  simp only [boundedChecks, Bool.and_eq_true, decide_eq_true_eq] at hb2
  set s0 := TimeLimit.init uu ss K st .inf dlim with hs0
  set s1 := runEvs s0 evs with hs1
  have hinv0 : BaseInv s0 := baseInv_init _ _ _ _ _ _ hss hst
  have hlim0 : s0.limit_ns = kint64max := by simp [hs0, TimeLimit.init, Dbl.geQ]
  have hlim1 : s1.limit_ns = kint64max := limit_run_never evs hinv0 hlim0 henv1 hb1
  have hinv1 : BaseInv s1 := baseInv_run evs hinv0 henv1
  have hsafe1 : s1.safety_buffer_ns = s0.safety_buffer_ns :=
    (runEvs_const_fields s0 evs).2.2.1
  constructor
  · simp [TimeLimit.GetTimeLeft, hlim1]
  · intro htrue
    by_contra hdet
    have := wall_check_noop n u hinv1 hn (by rw [hsafe1]; exact hb2.1) hlim1 hdet
    rw [this] at htrue
    simp at htrue

/-- Witness for C5: infinite wall-clock limit, one call at 5ns. -/
theorem infinite_limit_identity_witness :
    (runEvs (TimeLimit.init false 0 2 0 .inf .inf) []).GetTimeLeft 5 0 = .inf :=
  (infinite_limit_identity false 0 2 0 .inf [] 5 0
    (by norm_num) (by norm_num)
    (by norm_num [envOK, runEvs, TimeLimit.init])
    (by norm_num [boundedChecks, TimeLimit.init, truncQ, kint64max])).1

/-! ## Range of the time-remaining queries -/

/-- C4 counterexample: a tracker constructed with the *finite* wall-clock limit
of 10^10 seconds (from instant 0) saturates `limit_ns_` to `kint64max`, so
`GetTimeLeft()` returns infinity even though the configured limit was finite —
refuting "returns infinite only if the respective limit was configured as
infinite". -/
theorem time_left_queries_range_cex :
    (TimeLimit.init false 0 10 0 (.fin 10000000000) .inf).GetTimeLeft 5 0 = .inf ∧
      Dbl.fin 10000000000 ≠ Dbl.inf := by
  constructor
  · have hlim : (TimeLimit.init false 0 10 0 (.fin 10000000000) .inf).limit_ns
        = kint64max := by
      simp only [TimeLimit.init]
      rw [if_pos (by norm_num [Dbl.geQ, kint64max])]
    unfold TimeLimit.GetTimeLeft
    rw [if_pos hlim]
  · simp

/-- C4 (amended): the time-remaining queries never return a negative value;
after exhaustion of the respective budget they return exactly 0;
`GetDeterministicTimeLeft()` returns infinity — across every call sequence
from construction — only if the deterministic limit was configured infinite;
and (for non-negative configured limits) `GetTimeLeft()` returns infinity
right after construction iff the wall-clock limit was configured infinite or
so large that `start_ns + limit * 1e9` saturates past `kint64max`. -/
theorem time_left_queries_range_amended :
    (∀ (s : TimeLimit) (n : ℤ) (u : ℚ), (s.GetTimeLeft n u).NonNeg) ∧
    (∀ s : TimeLimit, s.GetDeterministicTimeLeft.NonNeg) ∧
    (∀ s : TimeLimit, detExhausted s → s.GetDeterministicTimeLeft = .fin 0) ∧
    (∀ (s : TimeLimit) (n : ℤ) (u : ℚ),
      s.limit_ns = 0 → 0 < n → s.GetTimeLeft n u = .fin 0) ∧
    (∀ (uu : Bool) (ss : ℚ) (K : ℕ) (st : ℤ) (lim dlim : Dbl) (n : ℤ) (u : ℚ),
      lim.NonNeg →
        ((TimeLimit.init uu ss K st lim dlim).GetTimeLeft n u = .inf ↔
          lim.geQ (((kint64max - st : ℤ) : ℚ) / 1000000000) = true)) ∧
    (∀ (uu : Bool) (ss : ℚ) (K : ℕ) (st : ℤ) (lim dlim : Dbl) (evs : List Ev),
      ((runEvs (TimeLimit.init uu ss K st lim dlim) evs).GetDeterministicTimeLeft
          = .inf ↔ dlim = .inf)) := by
  refine ⟨?_, ?_, ?_, ?_, ?_, ?_⟩
  · intro s n u
    unfold TimeLimit.GetTimeLeft
    split_ifs with h1 h2 h3
    · trivial
    · exact le_refl 0
    · cases h : s.limit_in_seconds with
      | inf => simp [Dbl.sub, Dbl.max0, Dbl.NonNeg]
      | fin q => simp [Dbl.sub, Dbl.max0, Dbl.NonNeg]
    · have : (0:ℚ) ≤ ((s.limit_ns - n : ℤ) : ℚ) := by exact_mod_cast by omega
      simp only [Dbl.NonNeg]
      positivity
  · intro s
    unfold TimeLimit.GetDeterministicTimeLeft
    cases s.deterministic_limit with
    | inf => simp [Dbl.sub, Dbl.max0, Dbl.NonNeg]
    | fin q => simp [Dbl.sub, Dbl.max0, Dbl.NonNeg]
  · intro s h
    rw [detExhausted_iff] at h
    obtain ⟨q, hq, hle⟩ := h
    unfold TimeLimit.GetDeterministicTimeLeft
    rw [hq]
    simp only [Dbl.sub, Dbl.max0, Dbl.fin.injEq]
    exact le_antisymm (by simp; linarith) (le_max_left 0 _)
  · intro s n u h1 h2
    unfold TimeLimit.GetTimeLeft
    rw [if_neg (by rw [h1]; norm_num [kint64max]), if_pos (by omega)]
  · intro uu ss K st lim dlim n u hnn
    constructor
    · intro hinf
      by_contra hgeq
      have hgeq2 : lim.geQ (((kint64max - st : ℤ) : ℚ) / 1000000000) = false :=
        Bool.eq_false_iff.mpr hgeq
      cases hl : lim with
      | inf => rw [hl] at hgeq2; simp [Dbl.geQ] at hgeq2
      | fin q =>
          have hlt : q < ((kint64max - st : ℤ) : ℚ) / 1000000000 := by
            rw [hl] at hgeq2
            simpa [Dbl.geQ] using hgeq2
          have hq0 : 0 ≤ q := by rw [hl] at hnn; exact hnn
          have hne : (TimeLimit.init uu ss K st lim dlim).limit_ns ≠ kint64max := by
            simp only [TimeLimit.init, hl, hgeq2]
            rw [if_neg (by rw [← hl, hgeq2]; simp)]
            have h9 : (0:ℚ) < 1000000000 := by norm_num
            have hq9 : q * 1000000000 < ((kint64max - st : ℤ) : ℚ) :=
              (lt_div_iff₀ h9).1 hlt
            have htr : ((Dbl.fin q).toNs : ℚ) ≤ q * 1000000000 := by
              simpa [Dbl.toNs] using truncQ_le (by positivity)
            intro heq
            have : ((Dbl.fin q).toNs + st : ℤ) = kint64max := heq
            have hcast : (((Dbl.fin q).toNs + st : ℤ) : ℚ) = ((kint64max : ℤ) : ℚ) := by
              exact_mod_cast this
            push_cast at hcast htr hq9
            linarith
          revert hinf
          unfold TimeLimit.GetTimeLeft
          rw [if_neg hne]
          split_ifs with h2 h3
          · simp
          · have hfield : (TimeLimit.init uu ss K st lim dlim).limit_in_seconds = lim :=
              rfl
            rw [hfield, hl]
            simp [Dbl.sub, Dbl.max0]
          · simp
    · intro hgeq
      have hlim : (TimeLimit.init uu ss K st lim dlim).limit_ns = kint64max := by
        simp only [TimeLimit.init]
        rw [if_pos hgeq]
      unfold TimeLimit.GetTimeLeft
      rw [if_pos hlim]
  · intro uu ss K st lim dlim evs
    have hd : (runEvs (TimeLimit.init uu ss K st lim dlim) evs).deterministic_limit
        = dlim := by
      rw [(runEvs_const_fields _ evs).2.2.2.2.2.2]
      rfl
    unfold TimeLimit.GetDeterministicTimeLeft
    rw [hd]
    cases dlim with
    | inf => simp [Dbl.sub, Dbl.max0]
    | fin q => simp [Dbl.sub, Dbl.max0]

/-! ## CPU-time-mode extension -/

/-- C6: when CPU-time mode is active, the deterministic budget is not exhausted
and the wall-clock test trips, `LimitReached()` recomputes the remaining CPU
time: if it exceeds the safety buffer the call extends `limit_ns_` to
`last_ns_ + cpu_time_left` (converted to nanoseconds) and returns not-exhausted;
otherwise it latches `limit_ns_ = 0` — after which every future call returns
exhausted — and returns exhausted. -/
theorem cpu_time_mode_extension (s : TimeLimit) (n : ℤ) (u : ℚ)
    (huu : s.use_usertime = true)
    (hdet : ¬ detExhausted s)
    (hsafe : 0 ≤ s.safety_buffer_ns)
    (hn : 0 ≤ n)
    (hwall : s.limit_ns ≤ n + RunningMax.currentMax
        (RunningMax.add s.history_size s.running_max
          (max s.safety_buffer_ns (n - s.last_ns)))) :
    ((s.limit_in_seconds.sub u).gtQ s.safety_seconds = true →
      s.LimitReached n u =
        (false, { s.pushHist n with
          limit_ns := (s.limit_in_seconds.sub u).toNs + n })) ∧
    ((s.limit_in_seconds.sub u).gtQ s.safety_seconds = false →
      ((s.LimitReached n u).1 = true ∧
       (s.LimitReached n u).2.limit_ns = 0 ∧
       ∀ (evs : List Ev) (m : ℤ) (v : ℚ),
         envOK (s.LimitReached n u).2 u (evs ++ [Ev.check m v]) = true →
         ((runEvs (s.LimitReached n u).2 evs).LimitReached m v).1 = true)) := by
  rw [LimitReached_spec s n u hdet, if_pos hwall, if_pos huu]
  constructor
  · intro hgt
    rw [if_pos hgt]
  · intro hgt
    rw [if_neg (by simp [hgt])]
    refine ⟨rfl, rfl, ?_⟩
    intro evs m v henv
    have hWL : WallLatched { s.pushHist n with limit_ns := 0 } u := by
      refine ⟨rfl, hsafe, hn, ?_⟩
      intro _
      exact hgt
    rw [envOK_append, Bool.and_eq_true] at henv
    obtain ⟨he1, he2⟩ := henv
    simp only [envOK, Bool.and_eq_true, decide_eq_true_eq] at he2
    obtain ⟨⟨hm, hv⟩, -⟩ := he2
    have hL := latched_run evs (Or.inr hWL) he1
    exact (latched_check m v hL hm hv).1

/-- Witness for C6, exercising the latching branch: CPU-time mode, wall test
tripped, and no CPU time left beyond the safety buffer. -/
theorem cpu_time_mode_extension_witness :
    ((TimeLimit.init true 0 2 0 (.fin 1) .inf).LimitReached 2000000000 1).1 = true ∧
    ((TimeLimit.init true 0 2 0 (.fin 1) .inf).LimitReached 2000000000 1).2.limit_ns
      = 0 :=
  have h := (cpu_time_mode_extension (TimeLimit.init true 0 2 0 (.fin 1) .inf)
    2000000000 1 rfl
    (by norm_num [detExhausted, TimeLimit.init, TimeLimit.GetDeterministicTimeLeft,
      Dbl.sub, Dbl.max0, Dbl.leZero])
    (by norm_num [TimeLimit.init, truncQ])
    (by norm_num)
    (by norm_num [TimeLimit.init, RunningMax.add, RunningMax.currentMax,
      Dbl.geQ, Dbl.toNs, truncQ, kint64max])).2
    (by norm_num [TimeLimit.init, Dbl.sub, Dbl.gtQ])
  ⟨h.1, h.2.1⟩

/-! ## Clock-anomaly clamping -/

/-- Every entry ever recorded into the interval history is at least
`safety_buffer_ns_`.  This needs no environment assumption at all: the recorded
gap is `max(safety_buffer_ns_, current_ns - last_ns_)` whatever the clock does. -/
theorem hist_lb_check (s : TimeLimit) (n : ℤ) (u : ℚ)
    (h : ∀ x ∈ s.running_max, s.safety_buffer_ns ≤ x) :
    ∀ x ∈ (s.LimitReached n u).2.running_max, s.safety_buffer_ns ≤ x := by
  rcases LimitReached_snd_cases s n u with hc | ⟨L, hc⟩
  · rw [hc]; exact h
  · rw [hc]
    intro x hx
    simp only [TimeLimit.pushHist, RunningMax.add] at hx
    have hx2 : x ∈ max s.safety_buffer_ns (n - s.last_ns) :: s.running_max :=
      List.mem_of_mem_take hx
    rcases List.mem_cons.1 hx2 with hx3 | hx3
    · subst hx3; exact le_max_left _ _
    · exact h x hx3

theorem hist_lb_run (s : TimeLimit) (evs : List Ev)
    (h : ∀ x ∈ s.running_max, s.safety_buffer_ns ≤ x) :
    ∀ x ∈ (runEvs s evs).running_max, s.safety_buffer_ns ≤ x := by
  induction evs generalizing s with
  | nil => simpa [runEvs]
  | cons e r ih =>
      cases e with
      | advance d =>
          simp only [runEvs, stepEv]
          exact ih _ (by simpa [TimeLimit.AdvanceDeterministicTime] using h)
      | check n u =>
          simp only [runEvs, stepEv]
          have hsf : ((s.LimitReached n u).2).safety_buffer_ns = s.safety_buffer_ns := by
            have h2 := (stepEv_const_fields s (Ev.check n u)).2.2.1
            simpa [stepEv] using h2
          intro x hx
          rw [← hsf]
          exact ih _ (by rw [hsf]; exact hist_lb_check s n u h) x hx

/-- C8: every `LimitReached()` call that proceeds past the deterministic check
records `max(safety_buffer_ns_, current_ns - last_ns_)` into the interval
history; a backwards clock step is clamped to the safety buffer and no error is
propagated; consequently every recorded value — and hence the running maximum —
is at least the safety buffer on every reachable state, for *arbitrary* traces
(no clock-monotonicity assumed: anomalous readings are exactly the point). -/
theorem clock_anomaly_clamping (s : TimeLimit) (n : ℤ) (u : ℚ)
    (uu : Bool) (ss : ℚ) (K : ℕ) (st : ℤ) (lim dlim : Dbl) (evs : List Ev)
    (hdet : ¬ detExhausted s)
    (hsafe : 0 ≤ s.safety_buffer_ns) :
    ((s.LimitReached n u).2.running_max =
        RunningMax.add s.history_size s.running_max
          (max s.safety_buffer_ns (n - s.last_ns))) ∧
    (n < s.last_ns → max s.safety_buffer_ns (n - s.last_ns) = s.safety_buffer_ns) ∧
    (∀ x ∈ (runEvs (TimeLimit.init uu ss K st lim dlim) evs).running_max,
        (TimeLimit.init uu ss K st lim dlim).safety_buffer_ns ≤ x) ∧
    (∀ (g : ℤ) (l2 : List ℤ),
        (runEvs (TimeLimit.init uu ss K st lim dlim) evs).running_max = g :: l2 →
        (TimeLimit.init uu ss K st lim dlim).safety_buffer_ns ≤
          RunningMax.currentMax (g :: l2)) := by
  have hmem : ∀ x ∈ (runEvs (TimeLimit.init uu ss K st lim dlim) evs).running_max,
      (TimeLimit.init uu ss K st lim dlim).safety_buffer_ns ≤ x := by
    refine hist_lb_run _ evs ?_
    intro x hx
    simp [TimeLimit.init] at hx
  refine ⟨?_, ?_, hmem, ?_⟩
  · rw [LimitReached_spec s n u hdet]
    split_ifs <;> rfl
  · intro h
    exact max_eq_left (by omega)
  · intro g l2 hgl
    have hg : (TimeLimit.init uu ss K st lim dlim).safety_buffer_ns ≤ g :=
      hmem g (by rw [hgl]; exact List.mem_cons_self g l2)
    exact le_trans hg (currentMax_head_le g l2)

/-- Witness for C8: a call whose clock reading (3ns) is behind `last_ns_` (5ns). -/
theorem clock_anomaly_clamping_witness :
    ((TimeLimit.init false 0 2 5 (.fin 1) .inf).LimitReached 3 0).2.running_max =
      RunningMax.add (TimeLimit.init false 0 2 5 (.fin 1) .inf).history_size
        (TimeLimit.init false 0 2 5 (.fin 1) .inf).running_max
        (max (TimeLimit.init false 0 2 5 (.fin 1) .inf).safety_buffer_ns
          (3 - (TimeLimit.init false 0 2 5 (.fin 1) .inf).last_ns)) ∧
    max (TimeLimit.init false 0 2 5 (.fin 1) .inf).safety_buffer_ns
        (3 - (TimeLimit.init false 0 2 5 (.fin 1) .inf).last_ns) =
      (TimeLimit.init false 0 2 5 (.fin 1) .inf).safety_buffer_ns :=
  have h := clock_anomaly_clamping (TimeLimit.init false 0 2 5 (.fin 1) .inf) 3 0
    false 0 2 5 (.fin 1) .inf []
    (by norm_num [detExhausted, TimeLimit.init, TimeLimit.GetDeterministicTimeLeft,
      Dbl.sub, Dbl.max0, Dbl.leZero])
    (by norm_num [TimeLimit.init, truncQ])
  ⟨h.1, h.2.1 (by norm_num [TimeLimit.init])⟩

/-! ## GetTimeLeft after a wall-clock latch -/

theorem true_wallLatches {s : TimeLimit} (n : ℤ) (u : ℚ)
    (h : BaseInv s) (hn : s.last_ns ≤ n) (hdet : ¬ detExhausted s)
    (htrue : (s.LimitReached n u).1 = true) :
    WallLatched (s.LimitReached n u).2 u := by
  obtain ⟨h1, h2, h3, -⟩ := h
  rw [LimitReached_spec s n u hdet] at htrue ⊢
  by_cases hwall : s.limit_ns ≤ n + RunningMax.currentMax
      (RunningMax.add s.history_size s.running_max
        (max s.safety_buffer_ns (n - s.last_ns)))
  · rw [if_pos hwall] at htrue ⊢
    by_cases huu : s.use_usertime = true
    · rw [if_pos huu] at htrue ⊢
      by_cases hgt : (s.limit_in_seconds.sub u).gtQ s.safety_seconds = true
      · rw [if_pos hgt] at htrue; simp at htrue
      · rw [if_neg hgt] at htrue ⊢
        refine ⟨rfl, h1, ?_, ?_⟩
        · simp only [TimeLimit.pushHist]; omega
        · intro _
          exact Bool.eq_false_iff.mpr hgt
    · rw [if_neg huu] at htrue ⊢
      refine ⟨rfl, h1, ?_, ?_⟩
      · simp only [TimeLimit.pushHist]; omega
      · intro hc
        exact absurd hc huu
  · rw [if_neg hwall] at htrue; simp at htrue

theorem wallLatched_run {s : TimeLimit} {lu : ℚ} (evs : List Ev)
    (h : WallLatched s lu) (he : envOK s lu evs = true) :
    WallLatched (runEvs s evs) (lastUser lu evs) := by
  induction evs generalizing s lu with
  | nil => simpa [runEvs, lastUser]
  | cons e r ih =>
      cases e with
      | advance d =>
          simp only [envOK, Bool.and_eq_true, decide_eq_true_eq] at he
          simp only [runEvs, stepEv, lastUser]
          exact ih (wallLatched_advance d h) he.2
      | check n u =>
          simp only [envOK, Bool.and_eq_true, decide_eq_true_eq] at he
          simp only [runEvs, stepEv, lastUser]
          by_cases hdet : detExhausted s
          · have hd := LimitReached_det n u hdet
            rw [hd] at he ⊢
            refine ih ?_ (show envOK s u r = true from he.2)
            obtain ⟨g1, g2, g3, g4⟩ := h
            exact ⟨g1, g2, g3, fun hc => Dbl.gtQ_anti he.1.2 (g4 hc)⟩
          · exact ih (wallLatched_check n u h hdet he.1.1 he.1.2).2 he.2

/-- C9: once `LimitReached()` has returned true through the wall-clock branch,
`limit_ns_` is set to 0, and every later `GetTimeLeft()` call (at a positive
clock reading) returns exactly 0 — in CPU-time mode as well, since the
wall-clock delta is already negative and the CPU-time computation is skipped. -/
theorem wall_latch_time_left_zero (uu : Bool) (ss : ℚ) (K : ℕ) (st : ℤ)
    (lim dlim : Dbl) (evs1 evs2 : List Ev) (n m : ℤ) (u v : ℚ)
    (hss : 0 ≤ ss) (hst : 0 ≤ st)
    (henv : envOK (TimeLimit.init uu ss K st lim dlim) 0
        (evs1 ++ Ev.check n u :: evs2) = true)
    (hdet : ¬ detExhausted (runEvs (TimeLimit.init uu ss K st lim dlim) evs1))
    (htrue : ((runEvs (TimeLimit.init uu ss K st lim dlim) evs1).LimitReached n u).1
        = true)
    (hm : 0 < m) :
    ((runEvs (TimeLimit.init uu ss K st lim dlim) evs1).LimitReached n u).2.limit_ns
        = 0 ∧
    (runEvs (TimeLimit.init uu ss K st lim dlim)
        (evs1 ++ Ev.check n u :: evs2)).GetTimeLeft m v = .fin 0 := by
  rw [envOK_append, Bool.and_eq_true] at henv
  obtain ⟨henv1, henv2⟩ := henv
  simp only [envOK, Bool.and_eq_true, decide_eq_true_eq] at henv2
  obtain ⟨⟨hn, hu⟩, henv3⟩ := henv2
  have hbase : BaseInv (runEvs (TimeLimit.init uu ss K st lim dlim) evs1) :=
    baseInv_run evs1 (baseInv_init uu ss K st lim dlim hss hst) henv1
  have hWL := true_wallLatches n u hbase hn hdet htrue
  refine ⟨hWL.1, ?_⟩
  have hrw : runEvs (TimeLimit.init uu ss K st lim dlim) (evs1 ++ Ev.check n u :: evs2) =
      runEvs ((runEvs (TimeLimit.init uu ss K st lim dlim) evs1).LimitReached n u).2
        evs2 := by
    rw [runEvs_append]
    simp [runEvs, stepEv]
  rw [hrw]
  have hWL2 := wallLatched_run evs2 hWL henv3
  unfold TimeLimit.GetTimeLeft
  rw [if_neg (by rw [hWL2.1]; norm_num [kint64max]), if_pos (by rw [hWL2.1]; omega)]

/-- Witness for C9: wall latch at the first call, `GetTimeLeft` at 2ns is 0. -/
theorem wall_latch_time_left_zero_witness :
    ((runEvs (TimeLimit.init false 0 2 0 (.fin 0) .inf) []).LimitReached 1 0).2.limit_ns
        = 0 ∧
    (runEvs (TimeLimit.init false 0 2 0 (.fin 0) .inf)
        ([] ++ Ev.check 1 0 :: [])).GetTimeLeft 2 0 = .fin 0 :=
  wall_latch_time_left_zero false 0 2 0 (.fin 0) .inf [] [] 1 2 0 0
    (by norm_num) (by norm_num)
    (by norm_num [envOK, runEvs, stepEv, TimeLimit.init, TimeLimit.LimitReached,
      TimeLimit.GetDeterministicTimeLeft, TimeLimit.pushHist,
      RunningMax.add, RunningMax.currentMax, Dbl.sub, Dbl.max0, Dbl.leZero, Dbl.gtQ,
      Dbl.geQ, Dbl.toNs, truncQ, kint64max])
    (by norm_num [runEvs, detExhausted, TimeLimit.init,
      TimeLimit.GetDeterministicTimeLeft, Dbl.sub, Dbl.max0, Dbl.leZero])
    (by norm_num [runEvs, TimeLimit.init, TimeLimit.LimitReached,
      TimeLimit.GetDeterministicTimeLeft, TimeLimit.pushHist,
      RunningMax.add, RunningMax.currentMax, Dbl.sub, Dbl.max0, Dbl.leZero, Dbl.gtQ,
      Dbl.geQ, Dbl.toNs, truncQ, kint64max])
    (by norm_num)

end operations_research
